import Mathlib

/-!
Verification of the filament repository excerpt: the matc command-line
configuration parser (src/tools/matc/src/matc/CommandlineConfig.cpp) and the
Vulkan backend context declarations (src/filament/backend/src/vulkan/VulkanContext.h).

C++ strings are embedded as `List Char`; `std::unordered_map` as an association
list with `emplace` (insert-only-if-absent) semantics; machine integers as `Nat`
(all arithmetic here is bitwise OR/AND on small non-negative values, which cannot
overflow a `uint8_t`/`uint32_t` in any reachable state we reason about).
-/

/-! ## matc command-line configuration (CommandlineConfig.cpp) -/

/-- The defines map `std::unordered_map<std::string, std::string>`, embedded as an
association list keyed by the define name. -/
abbrev DefineMap := List (List Char × List Char)

/-- `std::unordered_map::emplace`: inserts `(k, v)` only when no entry with key `k`
exists; an existing entry is left untouched. -/
def emplace (k v : List Char) (m : DefineMap) : DefineMap :=
  match List.lookup k m with
  | some _ => m
  | none => (k, v) :: m

/-- `parseDefine` (CommandlineConfig.cpp:128-153): scans to the first `=`.
If one is found but the define name would be empty (the string starts with `=`)
or the value would be empty (the first `=` is the last character), the map is
left unchanged.  Otherwise the name/value pair, or the whole string with the
default value "1" when no `=` occurs, is emplaced. -/
def parseDefine (s : List Char) (defines : DefineMap) : DefineMap :=
  let name := s.takeWhile (fun c => c != '=')
  if name.length < s.length then
    -- a '=' occurs, at position name.length
    if name.length = 0 ∨ name.length + 1 ≥ s.length then
      defines
    else
      emplace name (s.drop (name.length + 1)) defines
  else
    emplace s ['1'] defines

/-- The variant bit constants `filament::Variant::{DIR,DYN,SRE,SKN,VSM,FOG}` come
from a header outside the excerpt; the development is parametric in their
values, so every theorem below holds whatever those constants are. -/
structure VariantBits where
  DIR : Nat
  DYN : Nat
  SRE : Nat
  SKN : Nat
  VSM : Nat
  FOG : Nat

/-- The contribution of one comma-separated item to the variant filter
(the cascade of string comparisons in CommandlineConfig.cpp:107-119); an
unrecognized item leaves the accumulator unchanged, i.e. contributes 0. -/
def variantBit (vb : VariantBits) (item : List Char) : Nat :=
  if item = "directionalLighting".toList then vb.DIR
  else if item = "dynamicLighting".toList then vb.DYN
  else if item = "shadowReceiver".toList then vb.SRE
  else if item = "skinning".toList then vb.SKN
  else if item = "vsm".toList then vb.VSM
  else if item = "fog".toList then vb.FOG
  else 0

/-- The item sequence produced by the `std::getline(ss, item, ',')` loop
(CommandlineConfig.cpp:106): every maximal `,`-separated segment, except that a
trailing empty segment (from a trailing `,` or an empty input) yields no item,
because the final `getline` extracts nothing and fails. -/
def splitComma (s : List Char) : List (List Char) :=
  let segs := s.splitOn ','
  if segs.getLast? = some [] then segs.dropLast else segs

/-- Fold of the `variantFilter |= ...` loop over an item list. -/
def variantOfItems (vb : VariantBits) (items : List (List Char)) : Nat :=
  items.foldl (fun acc item => acc ||| variantBit vb item) 0

/-- `parseVariantFilter` (CommandlineConfig.cpp:102-122). -/
def parseVariantFilter (vb : VariantBits) (arg : List Char) : Nat :=
  variantOfItems vb (splitComma arg)

/-- `Config::OutputFormat`. -/
inductive MatcOutputFormat where
  | blob
  | cHeader
deriving DecidableEq

/-- `Config::Platform`. -/
inductive MatcPlatform where
  | desktop
  | mobile
  | all
deriving DecidableEq

/-- `Config::Optimization`. -/
inductive MatcOptimization where
  | PERFORMANCE
  | SIZE
  | PREPROCESSOR
  | NONE
deriving DecidableEq

/-- `Config::Metadata` (only PARAMETERS is reachable from the parser). -/
inductive MatcMetadata where
  | PARAMETERS
deriving DecidableEq

/-- `Config::TargetApi` bit values (declared in a header outside the excerpt;
distinct bits, with ALL the union, as the repeated `|=` accumulation implies). -/
def TargetApi_OPENGL : Nat := 1
def TargetApi_VULKAN : Nat := 2
def TargetApi_METAL : Nat := 4
def TargetApi_ALL : Nat := 7

/-- Variant bit values used when the parser calls `parseVariantFilter`
(concrete distinct bits standing in for the `filament::Variant` constants,
which are declared outside the excerpt). -/
def variantBitsImpl : VariantBits :=
  { DIR := 1, DYN := 2, SRE := 4, SKN := 8, VSM := 16, FOG := 32 }

/-- The mutable state of `CommandlineConfig` touched by `parse()`. -/
structure MatcConfig where
  output : Option (List Char) := none
  outputFormat : MatcOutputFormat := .blob
  debugFlag : Bool := false
  platform : MatcPlatform := .all
  targetApi : Nat := 0
  defines : DefineMap := []
  variantFilter : Nat := 0
  optimization : MatcOptimization := .PERFORMANCE
  reflectionTarget : Option MatcMetadata := none
  printShaders : Bool := false
  rawShaderMode : Bool := false
  input : Option (List Char) := none
deriving DecidableEq

/-- One option token as delivered by `getopt_long` (the option character plus
its argument when the option takes one). -/
inductive MatcOpt where
  | help
  | license
  | output (arg : List Char)
  | outputFormat (arg : List Char)
  | debugFlag
  | platform (arg : List Char)
  | api (arg : List Char)
  | define (arg : List Char)
  | version (dummy : Unit)
  | variantFilter (arg : List Char)
  | optimize
  | optimizeSize
  | preprocessorOnly
  | optimizeNone
  | reflect (arg : List Char)
  | printShaders
  | raw
deriving DecidableEq

/-- Result of handling one option in the `switch` of `CommandlineConfig::parse`:
continue with an updated config, return `false` (unrecognized option value), or
`exit(0)` (help / license / version). -/
inductive OptStep where
  | ok (c : MatcConfig)
  | failed
  | exited
deriving DecidableEq

/-- One iteration of the `switch` statement (CommandlineConfig.cpp:184-274). -/
def processOpt (c : MatcConfig) (o : MatcOpt) : OptStep :=
  match o with
  | .help => .exited
  | .license => .exited
  | .output arg => .ok { c with output := some arg }
  | .outputFormat arg =>
    if arg = "blob".toList then .ok { c with outputFormat := .blob }
    else if arg = "header".toList then .ok { c with outputFormat := .cHeader }
    else .failed
  | .debugFlag => .ok { c with debugFlag := true }
  | .platform arg =>
    if arg = "desktop".toList then .ok { c with platform := .desktop }
    else if arg = "mobile".toList then .ok { c with platform := .mobile }
    else if arg = "all".toList then .ok { c with platform := .all }
    else .failed
  | .api arg =>
    if arg = "opengl".toList then .ok { c with targetApi := c.targetApi ||| TargetApi_OPENGL }
    else if arg = "vulkan".toList then .ok { c with targetApi := c.targetApi ||| TargetApi_VULKAN }
    else if arg = "metal".toList then .ok { c with targetApi := c.targetApi ||| TargetApi_METAL }
    else if arg = "all".toList then .ok { c with targetApi := c.targetApi ||| TargetApi_ALL }
    else .failed
  | .define arg => .ok { c with defines := parseDefine arg c.defines }
  | .version _ => .exited
  | .variantFilter arg => .ok { c with variantFilter := parseVariantFilter variantBitsImpl arg }
  | .optimize => .ok { c with optimization := .PERFORMANCE }
  | .optimizeSize => .ok { c with optimization := .SIZE }
  | .preprocessorOnly => .ok { c with optimization := .PREPROCESSOR }
  | .optimizeNone => .ok { c with optimization := .NONE }
  | .reflect _ => .ok { c with reflectionTarget := some .PARAMETERS }
  | .printShaders => .ok { c with printShaders := true }
  | .raw => .ok { c with rawShaderMode := true }

/-- The `while (getopt_long(...))` loop: options are handled left to right;
`false`/`exit` outcomes abort the loop. -/
def processOpts (c : MatcConfig) : List MatcOpt → OptStep
  | [] => .ok c
  | o :: rest =>
    match processOpt c o with
    | .ok c2 => processOpts c2 rest
    | .failed => .failed
    | .exited => .exited

/-- Outcome of `CommandlineConfig::parse`: `success c` models `return true` with
final state `c`, `failed` models `return false`, `exited` models `exit(0)`. -/
inductive ParseOutcome where
  | success (c : MatcConfig)
  | failed
  | exited
deriving DecidableEq

/-- `CommandlineConfig::parse` (CommandlineConfig.cpp:155-286): the option loop
followed by the positional-argument epilogue (lines 277-285).  `positionals` is
`argv[optind..]`, the non-option arguments left over by `getopt_long`. -/
def matcParse (opts : List MatcOpt) (positionals : List (List Char)) : ParseOutcome :=
  match processOpts {} opts with
  | .failed => .failed
  | .exited => .exited
  | .ok c =>
    if positionals.length > 1 then .failed
    else
      match positionals with
      | [] => .success c
      | p :: _ => .success { c with input := some p }

/-! ## Lemmas about the matc parser -/

/-- Scanning for the first `=` stops exactly at the `=` separator. -/
theorem takeWhile_neq_append (name rest : List Char) (h : '=' ∉ name) :
    (name ++ '=' :: rest).takeWhile (fun c => c != '=') = name := by
  induction name with
  | nil => simp [List.takeWhile_cons]
  | cons a t ih =>
    have ha : a ≠ '=' := fun hs => h (hs ▸ List.mem_cons_self a t)
    have ht : '=' ∉ t := fun hm => h (List.mem_cons_of_mem a hm)
    simp [List.takeWhile_cons, ha, ih ht]

/-- A string without `=` is its own `takeWhile` scan. -/
theorem takeWhile_neq_all (s : List Char) (h : '=' ∉ s) :
    s.takeWhile (fun c => c != '=') = s := by
  induction s with
  | nil => rfl
  | cons a t ih =>
    have ha : a ≠ '=' := fun hs => h (hs ▸ List.mem_cons_self a t)
    have ht : '=' ∉ t := fun hm => h (List.mem_cons_of_mem a hm)
    simp [List.takeWhile_cons, ha, ih ht]

/-- Unrolling `variantOfItems` over its accumulator. -/
theorem variantOfItems_foldl_init (vb : VariantBits) (l : List (List Char)) :
    ∀ b : Nat, l.foldl (fun acc item => acc ||| variantBit vb item) b
      = b ||| variantOfItems vb l := by
  induction l with
  | nil => intro b; simp [variantOfItems]
  | cons a t ih =>
    intro b
    have h1 : variantOfItems vb (a :: t)
        = variantBit vb a ||| variantOfItems vb t := by
      show List.foldl _ (0 ||| variantBit vb a) t = _
      rw [ih, Nat.zero_or]
    show List.foldl _ (b ||| variantBit vb a) t = _
    rw [ih, h1, Nat.or_assoc]

/-- `variantOfItems` peels one item as a bitwise OR contribution. -/
theorem variantOfItems_cons (vb : VariantBits) (item : List Char)
    (items : List (List Char)) :
    variantOfItems vb (item :: items) = variantBit vb item ||| variantOfItems vb items := by
  show List.foldl _ (0 ||| variantBit vb item) items = _
  rw [variantOfItems_foldl_init, Nat.zero_or]

/-- An item already present in the list contributes nothing extra. -/
theorem variantOfItems_absorb (vb : VariantBits) (a : List Char)
    (l : List (List Char)) (h : a ∈ l) :
    variantBit vb a ||| variantOfItems vb l = variantOfItems vb l := by
  induction l with
  | nil => cases h
  | cons b t ih =>
    rw [variantOfItems_cons]
    rcases List.mem_cons.mp h with hab | hat
    · subst hab
      rw [← Nat.or_assoc, Nat.or_self]
    · rw [← Nat.or_assoc, Nat.or_comm (variantBit vb a) (variantBit vb b),
        Nat.or_assoc, ih hat]

/-- `processOpt` never touches the input-file field. -/
theorem processOpt_ok_input (c : MatcConfig) (o : MatcOpt) (c2 : MatcConfig)
    (h : processOpt c o = .ok c2) : c2.input = c.input := by
  cases o <;> simp only [processOpt] at h <;>
    (try (split at h <;> try (split at h <;> try (split at h <;> try split at h)))) <;>
    (try cases h) <;> rfl

/-- The option loop never sets the input-file field. -/
theorem processOpts_input_none (opts : List MatcOpt) :
    ∀ c0 c : MatcConfig, c0.input = none → processOpts c0 opts = .ok c →
      c.input = none := by
  induction opts with
  | nil =>
    intro c0 c h h2
    simp only [processOpts] at h2
    cases h2
    exact h
  | cons o rest ih =>
    intro c0 c h h2
    simp only [processOpts] at h2
    cases hp : processOpt c0 o with
    | ok c2 =>
      rw [hp] at h2
      exact ih c2 c ((processOpt_ok_input c0 o c2 hp).trans h) h2
    | failed => rw [hp] at h2; cases h2
    | exited => rw [hp] at h2; cases h2

/-- C8: `parseDefine` inserts name→value for "name=value" with non-empty name and
value, inserts s→"1" when s has no '=', and leaves the map unchanged when the
name (string starts with '=') or the value (the first '=' is last) is empty. -/
theorem parseDefine_spec (name value s : List Char) (m : DefineMap) :
    ('=' ∉ name → name ≠ [] → value ≠ [] → List.lookup name m = none →
      parseDefine (name ++ '=' :: value) m = (name, value) :: m) ∧
    ('=' ∉ s → List.lookup s m = none → parseDefine s m = (s, ['1']) :: m) ∧
    (∀ t : List Char, parseDefine ('=' :: t) m = m) ∧
    ('=' ∉ name → parseDefine (name ++ ['=']) m = m) := by
  refine ⟨?_, ?_, ?_, ?_⟩
  · intro hne hname hvalue hfresh
    have htw := takeWhile_neq_append name value hne
    have hlen : (name ++ '=' :: value).length = name.length + 1 + value.length := by
      simp [List.length_append]; omega
    have hlt : name.length < (name ++ '=' :: value).length := by omega
    have hn0 : name.length ≠ 0 := fun h => hname (List.eq_nil_of_length_eq_zero h)
    have hv0 : value.length ≠ 0 := fun h => hvalue (List.eq_nil_of_length_eq_zero h)
    have hcond : ¬(name.length = 0 ∨ name.length + 1 ≥ (name ++ '=' :: value).length) := by
      omega
    have hdrop : (name ++ '=' :: value).drop (name.length + 1) = value := by
      have : name ++ '=' :: value = (name ++ ['=']) ++ value := by simp
      rw [this]
      have hl : (name ++ ['=']).length = name.length + 1 := by simp
      rw [← hl, List.drop_left]
    simp only [parseDefine, htw]
    rw [if_pos hlt, if_neg hcond, hdrop]
    simp [emplace, hfresh]
  · intro hne hfresh
    have htw := takeWhile_neq_all s hne
    simp only [parseDefine, htw]
    rw [if_neg (lt_irrefl s.length)]
    simp [emplace, hfresh]
  · intro t
    have htw : ('=' :: t).takeWhile (fun c => c != '=') = [] := by
      simp [List.takeWhile_cons]
    simp only [parseDefine, htw]
    simp
  · intro hne
    have htw := takeWhile_neq_append name [] hne
    have : name ++ '=' :: ([] : List Char) = name ++ ['='] := rfl
    rw [← this]
    simp only [parseDefine, htw]
    have hlt : name.length < (name ++ '=' :: ([] : List Char)).length := by
      simp
    rw [if_pos hlt, if_pos]
    right
    simp

/-- C8 witness: concrete calls of `parseDefine` exercising each clause. -/
theorem parseDefine_spec_witness :
    parseDefine (['a'] ++ '=' :: ['2']) [] = [(['a'], ['2'])] ∧
    parseDefine ['f', 'o', 'o'] [] = [(['f', 'o', 'o'], ['1'])] ∧
    parseDefine ('=' :: ['x']) [] = [] ∧
    parseDefine (['a'] ++ ['=']) [] = [] :=
  ⟨(parseDefine_spec ['a'] ['2'] [] []).1 (by decide) (by decide) (by decide) rfl,
   (parseDefine_spec [] [] ['f', 'o', 'o'] []).2.1 (by decide) rfl,
   (parseDefine_spec [] [] [] []).2.2.1 ['x'],
   (parseDefine_spec ['a'] [] [] []).2.2.2 (by decide)⟩

/-- C9: `parseVariantFilter` is the bitwise OR of the variant bits of the
recognized items of the comma-split argument; unrecognized items contribute
nothing, the result is invariant under permutation and duplication of items,
and the empty input yields 0. -/
theorem parseVariantFilter_spec (vb : VariantBits) (s item : List Char)
    (items l₁ l₂ : List (List Char)) :
    parseVariantFilter vb s = variantOfItems vb (splitComma s) ∧
    parseVariantFilter vb [] = 0 ∧
    variantOfItems vb (item :: items) = variantBit vb item ||| variantOfItems vb items ∧
    (variantBit vb item = 0 → variantOfItems vb (item :: items) = variantOfItems vb items) ∧
    (l₁.Perm l₂ → variantOfItems vb l₁ = variantOfItems vb l₂) ∧
    variantOfItems vb items.dedup = variantOfItems vb items := by
  refine ⟨rfl, rfl, variantOfItems_cons vb item items, ?_, ?_, ?_⟩
  · intro h0
    rw [variantOfItems_cons, h0, Nat.zero_or]
  · intro hperm
    have rc : RightCommutative (fun (acc : Nat) (it : List Char) => acc ||| variantBit vb it) :=
      ⟨fun b a1 a2 => by
        simp only [Nat.or_assoc, Nat.or_comm (variantBit vb a1) (variantBit vb a2)]⟩
    exact hperm.foldl_eq 0
  · induction items with
    | nil => rfl
    | cons a t ih =>
      by_cases hmem : a ∈ t
      · rw [List.dedup_cons_of_mem hmem, ih, variantOfItems_cons,
          variantOfItems_absorb vb a t hmem]
      · rw [List.dedup_cons_of_not_mem hmem, variantOfItems_cons, variantOfItems_cons, ih]

/-- C9 witness: permutation invariance and the OR decomposition at concrete inputs. -/
theorem parseVariantFilter_spec_witness :
    variantOfItems variantBitsImpl ["vsm".toList, "fog".toList]
      = variantOfItems variantBitsImpl ["fog".toList, "vsm".toList] ∧
    variantOfItems variantBitsImpl ["bogus".toList, "fog".toList]
      = variantOfItems variantBitsImpl ["fog".toList] :=
  ⟨(parseVariantFilter_spec variantBitsImpl [] [] [] ["vsm".toList, "fog".toList]
      ["fog".toList, "vsm".toList]).2.2.2.2.1 (by decide),
   (parseVariantFilter_spec variantBitsImpl [] "bogus".toList ["fog".toList] []
      []).2.2.2.1 (by decide)⟩

/-- C10: after a fully recognized option run, more than one leftover positional
argument makes `parse` return false; exactly one becomes the input file with
`parse` returning true; none leaves the input unset with `parse` returning true. -/
theorem matcParse_spec (opts : List MatcOpt) (c : MatcConfig) (ps : List (List Char))
    (p : List Char) :
    (processOpts {} opts = .ok c → 1 < ps.length → matcParse opts ps = .failed) ∧
    (processOpts {} opts = .ok c →
      matcParse opts [p] = .success { c with input := some p }) ∧
    (processOpts {} opts = .ok c → matcParse opts [] = .success c ∧ c.input = none) := by
  refine ⟨?_, ?_, ?_⟩
  · intro hok hlen
    simp only [matcParse, hok]
    rw [if_pos hlen]
  · intro hok
    simp only [matcParse, hok]
    norm_num
  · intro hok
    refine ⟨?_, processOpts_input_none opts {} c rfl hok⟩
    simp only [matcParse, hok]
    norm_num

/-- C10 witness: concrete invocations with two, one and zero positionals. -/
theorem matcParse_spec_witness :
    matcParse [MatcOpt.debugFlag] [['a'], ['b']] = .failed ∧
    matcParse [MatcOpt.debugFlag] [['a']]
      = .success { ({ debugFlag := true } : MatcConfig) with input := some ['a'] } ∧
    matcParse [MatcOpt.debugFlag] [] = .success { debugFlag := true } ∧
    ({ debugFlag := true } : MatcConfig).input = none :=
  ⟨(matcParse_spec [MatcOpt.debugFlag] { debugFlag := true } [['a'], ['b']] []).1
      (by decide) (by decide),
   (matcParse_spec [MatcOpt.debugFlag] { debugFlag := true } [] ['a']).2.1 (by decide),
   ((matcParse_spec [MatcOpt.debugFlag] { debugFlag := true } [] []).2.2 (by decide)).1,
   ((matcParse_spec [MatcOpt.debugFlag] { debugFlag := true } [] []).2.2 (by decide)).2⟩

/-! ## Vulkan backend: memory & format negotiator (VulkanContext.h:69-71) -/

/-- `VkFormatProperties`: the two tiling-dependent feature bitmasks consulted
during format negotiation. -/
structure VkFormatProperties where
  linearTilingFeatures : Nat
  optimalTilingFeatures : Nat

/-- `VkImageTiling`: the two tiling modes distinguished by format negotiation. -/
inductive VkImageTiling where
  | linear
  | optimal
deriving DecidableEq

/-- The sentinel format `VK_FORMAT_UNDEFINED` (numeric value 0 in Vulkan). -/
def VK_FORMAT_UNDEFINED : Nat := 0

/-- The feature bitmask relevant to the requested tiling mode. -/
def tilingFeatures (tiling : VkImageTiling) (p : VkFormatProperties) : Nat :=
  match tiling with
  | .linear => p.linearTilingFeatures
  | .optimal => p.optimalTilingFeatures

/-- A candidate format qualifies when the device-reported features for the
requested tiling include every requested feature bit. -/
def formatSupported (props : Nat → VkFormatProperties) (tiling : VkImageTiling)
    (features : Nat) (f : Nat) : Bool :=
  tilingFeatures tiling (props f) &&& features == features

/-- Modelled from the spec: the body of `VulkanContext::findSupportedFormat` is
not in the source excerpt (only its declaration, VulkanContext.h:70-71).  Per
spec §4.2 it scans the ordered candidate list and returns the first format whose
device-reported properties satisfy the requested tiling mode and feature flags,
or the sentinel undefined format when none qualifies.  `props` abstracts the
device's format-properties query. -/
def findSupportedFormat (props : Nat → VkFormatProperties) (candidates : List Nat)
    (tiling : VkImageTiling) (features : Nat) : Nat :=
  match candidates with
  | [] => VK_FORMAT_UNDEFINED
  | f :: rest =>
    if formatSupported props tiling features f then f
    else findSupportedFormat props rest tiling features

/-- Modelled from the spec: the body of `VulkanContext::selectMemoryType` is not
in the source excerpt (only its declaration, VulkanContext.h:69).  Per spec §4.2
it scans the device memory types in index order, returning the first index both
selected by the `flags` bitmask and whose property flags include all of `reqs`;
exhausting the table is a fatal failure, modelled as `none`.  `memTypes` is the
device's memory-type property-flag table, `i` the index of its first entry. -/
def selectFrom (memTypes : List Nat) (flags reqs i : Nat) : Option Nat :=
  match memTypes with
  | [] => none
  | t :: rest =>
    if flags.testBit i && (t &&& reqs == reqs) then some i
    else selectFrom rest flags reqs (i + 1)

/-- `selectMemoryType` scans the whole table starting at index 0. -/
def selectMemoryType (memTypes : List Nat) (flags reqs : Nat) : Option Nat :=
  selectFrom memTypes flags reqs 0

/-- Memory type `i` is selected by the bitmask and has all required properties. -/
def memTypeMatches (memTypes : List Nat) (flags reqs i : Nat) : Bool :=
  flags.testBit i && (memTypes.getD i 0 &&& reqs == reqs)

/-! ## Lemmas about the negotiator -/

/-- Characterization of a successful `selectFrom` scan starting at index `i`. -/
theorem selectFrom_some (flags reqs : Nat) :
    ∀ (memTypes : List Nat) (i k : Nat), selectFrom memTypes flags reqs i = some k →
      i ≤ k ∧ k - i < memTypes.length ∧
      (flags.testBit k && (memTypes.getD (k - i) 0 &&& reqs == reqs)) = true ∧
      ∀ j, i ≤ j → j < k →
        (flags.testBit j && (memTypes.getD (j - i) 0 &&& reqs == reqs)) = false := by
  intro memTypes
  induction memTypes with
  | nil => intro i k h; simp [selectFrom] at h
  | cons t rest ih =>
    intro i k h
    simp only [selectFrom] at h
    by_cases hc : (flags.testBit i && (t &&& reqs == reqs)) = true
    · rw [if_pos hc] at h
      have hik : i = k := by cases h; rfl
      subst hik
      refine ⟨Nat.le_refl i, by simp, ?_, ?_⟩
      · simpa [Nat.sub_self, List.getD_cons_zero] using hc
      · intro j hij hjk; omega
    · rw [if_neg hc] at h
      obtain ⟨h1, h2, h3, h4⟩ := ih (i + 1) k h
      refine ⟨by omega, by simp only [List.length_cons]; omega, ?_, ?_⟩
      · have hs : k - i = (k - (i + 1)) + 1 := by omega
        rw [hs, List.getD_cons_succ]
        exact h3
      · intro j hij hjk
        rcases Nat.eq_or_lt_of_le hij with hji | hji
        · subst hji
          simpa [Nat.sub_self, List.getD_cons_zero] using eq_false_of_ne_true hc
        · have hs : j - i = (j - (i + 1)) + 1 := by omega
          rw [hs, List.getD_cons_succ]
          exact h4 j hji hjk

/-- A scan over a table with no matching entry fails. -/
theorem selectFrom_none (flags reqs : Nat) :
    ∀ (memTypes : List Nat) (i : Nat),
      (∀ j, j < memTypes.length →
        (flags.testBit (i + j) && (memTypes.getD j 0 &&& reqs == reqs)) = false) →
      selectFrom memTypes flags reqs i = none := by
  intro memTypes
  induction memTypes with
  | nil => intro i _; rfl
  | cons t rest ih =>
    intro i h
    have h0 := h 0 (by simp)
    simp only [Nat.add_zero, List.getD_cons_zero] at h0
    simp only [selectFrom]
    rw [if_neg (by simp [h0])]
    refine ih (i + 1) ?_
    intro j hj
    have hnext := h (j + 1) (by simp only [List.length_cons]; omega)
    have harith : i + (j + 1) = (i + 1) + j := by omega
    rw [harith, List.getD_cons_succ] at hnext
    exact hnext

/-- A scan over a table containing a matching entry succeeds. -/
theorem selectFrom_complete (flags reqs : Nat) :
    ∀ (memTypes : List Nat) (i j : Nat), j < memTypes.length →
      (flags.testBit (i + j) && (memTypes.getD j 0 &&& reqs == reqs)) = true →
      ∃ k, selectFrom memTypes flags reqs i = some k := by
  intro memTypes
  induction memTypes with
  | nil => intro i j hj _; simp at hj
  | cons t rest ih =>
    intro i j hj hmatch
    by_cases hc : (flags.testBit i && (t &&& reqs == reqs)) = true
    · exact ⟨i, by simp only [selectFrom]; rw [if_pos hc]⟩
    · cases j with
      | zero =>
        exact absurd (by simpa using hmatch) hc
      | succ j2 =>
        have hj2 : j2 < rest.length := by
          simp only [List.length_cons] at hj
          omega
        have hm2 : (flags.testBit ((i + 1) + j2)
            && (rest.getD j2 0 &&& reqs == reqs)) = true := by
          have harith : i + (j2 + 1) = (i + 1) + j2 := by omega
          rw [harith, List.getD_cons_succ] at hmatch
          exact hmatch
        obtain ⟨k, hk⟩ := ih (i + 1) j2 hj2 hm2
        exact ⟨k, by simp only [selectFrom]; rw [if_neg hc]; exact hk⟩

/-- C4: `selectMemoryType` returns the lowest index both selected by the
memory-type bitmask and whose property flags include all required flags
(in particular it does return an index whenever any memory type matches), and
fails (fatally, modelled as `none`) when no memory type satisfies both. -/
theorem selectMemoryType_spec (memTypes : List Nat) (flags reqs k : Nat) :
    (selectMemoryType memTypes flags reqs = some k →
      k < memTypes.length ∧
      memTypeMatches memTypes flags reqs k = true ∧
      ∀ j, j < k → memTypeMatches memTypes flags reqs j = false) ∧
    ((∀ i, i < memTypes.length → memTypeMatches memTypes flags reqs i = false) →
      selectMemoryType memTypes flags reqs = none) ∧
    (∀ i, i < memTypes.length → memTypeMatches memTypes flags reqs i = true →
      ∃ j, selectMemoryType memTypes flags reqs = some j ∧ j ≤ i) := by
  refine ⟨?_, ?_, ?_⟩
  · intro h
    obtain ⟨_, h2, h3, h4⟩ := selectFrom_some flags reqs memTypes 0 k h
    refine ⟨by omega, ?_, ?_⟩
    · simpa [memTypeMatches, Nat.sub_zero] using h3
    · intro j hj
      simpa [memTypeMatches, Nat.sub_zero] using h4 j (Nat.zero_le j) hj
  · intro h
    refine selectFrom_none flags reqs memTypes 0 ?_
    intro j hj
    simpa [memTypeMatches, Nat.zero_add] using h j hj
  · intro i hi hm
    have hm0 : (flags.testBit i && (memTypes.getD i 0 &&& reqs == reqs)) = true := hm
    have hm2 : (flags.testBit (0 + i)
        && (memTypes.getD i 0 &&& reqs == reqs)) = true := by
      rw [Nat.zero_add]
      exact hm0
    obtain ⟨j, hj⟩ := selectFrom_complete flags reqs memTypes 0 i hi hm2
    refine ⟨j, hj, ?_⟩
    obtain ⟨_, _, _, h4⟩ := selectFrom_some flags reqs memTypes 0 j hj
    by_contra hgt
    push_neg at hgt
    have hfalse := h4 i (Nat.zero_le i) hgt
    rw [Nat.sub_zero, hm0] at hfalse
    cases hfalse

/-- C4 witness: bitmask `0b1010` selects indices 1 and 3, requirement bit 1 is
carried only by index 3, so an index is returned (and it is at most 3), index 3
matches and index 1 is rejected. -/
theorem selectMemoryType_spec_witness :
    memTypeMatches [0, 0, 0, 1] 10 1 3 = true ∧
    memTypeMatches [0, 0, 0, 1] 10 1 1 = false ∧
    3 < [0, 0, 0, 1].length ∧
    (∃ j, selectMemoryType [0, 0, 0, 1] 10 1 = some j ∧ j ≤ 3) :=
  ⟨((selectMemoryType_spec [0, 0, 0, 1] 10 1 3).1 rfl).2.1,
   ((selectMemoryType_spec [0, 0, 0, 1] 10 1 3).1 rfl).2.2 1 (by omega),
   ((selectMemoryType_spec [0, 0, 0, 1] 10 1 3).1 rfl).1,
   (selectMemoryType_spec [0, 0, 0, 1] 10 1 3).2.2 3 (by decide) (by decide)⟩

/-- C3: `findSupportedFormat` returns the sentinel undefined format when no
candidate qualifies, and otherwise the first candidate, in input order, whose
device-reported properties satisfy the requested tiling mode and feature flags. -/
theorem findSupportedFormat_spec (props : Nat → VkFormatProperties)
    (candidates pre post : List Nat) (tiling : VkImageTiling) (features c : Nat) :
    ((∀ f ∈ candidates, formatSupported props tiling features f = false) →
      findSupportedFormat props candidates tiling features = VK_FORMAT_UNDEFINED) ∧
    (candidates = pre ++ c :: post →
      (∀ f ∈ pre, formatSupported props tiling features f = false) →
      formatSupported props tiling features c = true →
      findSupportedFormat props candidates tiling features = c) := by
  constructor
  · intro h
    induction candidates with
    | nil => rfl
    | cons f rest ih =>
      have hf := h f (List.mem_cons_self f rest)
      simp only [findSupportedFormat]
      rw [if_neg (by simp [hf])]
      exact ih fun g hg => h g (List.mem_cons_of_mem f hg)
  · intro hdec hpre hc
    subst hdec
    induction pre with
    | nil =>
      simp only [List.nil_append, findSupportedFormat]
      rw [if_pos hc]
    | cons f rest ih =>
      have hf := hpre f (List.mem_cons_self f rest)
      simp only [List.cons_append, findSupportedFormat]
      rw [if_neg (by simp [hf])]
      exact ih fun g hg => hpre g (List.mem_cons_of_mem f hg)

/-- C3 witness: the spec scenario of candidates `[FormatA (unsupported),
FormatB (supported)]` returning FormatB, with format 5 unsupported and format 6
supported for optimal tiling under feature bit 1 (the device reports feature
bitmask 1 exactly for format 6). -/
theorem findSupportedFormat_spec_witness :
    findSupportedFormat (fun f => ⟨0, if f = 6 then 1 else 0⟩) [5, 6]
      VkImageTiling.optimal 1 = 6 :=
  (findSupportedFormat_spec (fun f => ⟨0, if f = 6 then 1 else 0⟩) [5, 6] [5] []
    VkImageTiling.optimal 1 6).2 rfl (by decide) (by decide)

/-! ## Vulkan backend: timestamp query pool (VulkanContext.h:52-56) -/

/-- One operation on the timestamp pool: `acquire()` or `release(i)`.
The mutex of `VulkanTimestamps` serializes them, so a history is a sequence. -/
inductive TsOp where
  | acquire
  | release (i : Fin 32)
deriving DecidableEq

/-- The in-use `utils::bitset32` of `VulkanTimestamps` (VulkanContext.h:54),
embedded as the finite set of set bit indices. -/
abbrev TsUsed := Finset (Fin 32)

/-- Modelled from the spec: the `acquire()` implementation for
`VulkanTimestamps` is not in the source excerpt (VulkanContext.h:52-56 declares
only the pool, the bitset and the mutex).  Per spec §4.5, `acquire()` scans the
in-use bitset for a clear bit, sets it and returns its index; when the pool is
exhausted it fails (returns nothing) rather than blocking. -/
def tsAcquire (s : TsUsed) : Option (Fin 32) × TsUsed :=
  match (List.finRange 32).find? (fun i => decide (i ∉ s)) with
  | some i => (some i, insert i s)
  | none => (none, s)

/-- Modelled from the spec: one pool operation; `release(i)` (spec §4.5) clears
bit `i` of the in-use bitset. -/
def tsStep (s : TsUsed) : TsOp → Option (Fin 32) × TsUsed
  | .acquire => tsAcquire s
  | .release i => (none, s.erase i)

/-- The in-use bitset after a sequence of pool operations. -/
def tsRun (s : TsUsed) : List TsOp → TsUsed
  | [] => s
  | op :: l => tsRun (tsStep s op).2 l

/-- The indices handed out along a sequence of pool operations. -/
def tsTrace (s : TsUsed) : List TsOp → List (Fin 32)
  | [] => []
  | op :: l =>
    (match (tsStep s op).1 with
      | some i => [i]
      | none => []) ++ tsTrace (tsStep s op).2 l

/-- A successful `acquire()` hands out a currently clear bit and sets it. -/
theorem tsAcquire_some (s : TsUsed) (i : Fin 32) (s2 : TsUsed)
    (h : tsAcquire s = (some i, s2)) : i ∉ s ∧ s2 = insert i s := by
  unfold tsAcquire at h
  cases hf : (List.finRange 32).find? (fun j => decide (j ∉ s)) with
  | none => rw [hf] at h; cases h
  | some j =>
    rw [hf] at h
    have hji : j = i ∧ insert j s = s2 := by cases h; exact ⟨rfl, rfl⟩
    obtain ⟨rfl, rfl⟩ := hji
    have := List.find?_some hf
    exact ⟨of_decide_eq_true this, rfl⟩

/-- A full pool rejects `acquire()` and is left unchanged. -/
theorem tsAcquire_full (s : TsUsed) (h : s.card = 32) : tsAcquire s = (none, s) := by
  have huniv : s = Finset.univ := by
    apply Finset.eq_univ_of_card
    rw [h, Fintype.card_fin]
  have hf : (List.finRange 32).find? (fun j => decide (j ∉ s)) = none := by
    rw [List.find?_eq_none]
    intro j _
    simp [huniv]
  unfold tsAcquire
  rw [hf]

/-- A bit that is set stays set, and is never handed out again, along any
operation sequence containing no `release` of it. -/
theorem ts_no_reuse (i : Fin 32) :
    ∀ (l : List TsOp) (s : TsUsed), i ∈ s → TsOp.release i ∉ l →
      i ∈ tsRun s l ∧ i ∉ tsTrace s l := by
  intro l
  induction l with
  | nil => intro s hi _; exact ⟨hi, by simp [tsTrace, tsRun]⟩
  | cons op rest ih =>
    intro s hi hnr
    have hnr2 : TsOp.release i ∉ rest := fun hm => hnr (List.mem_cons_of_mem op hm)
    have hrun : tsRun s (op :: rest) = tsRun (tsStep s op).2 rest := rfl
    have htr : tsTrace s (op :: rest)
        = (match (tsStep s op).1 with
            | some j => [j]
            | none => []) ++ tsTrace (tsStep s op).2 rest := rfl
    cases op with
    | acquire =>
      cases hstep : tsAcquire s with
      | mk r s2 =>
        have hstep2 : tsStep s TsOp.acquire = (r, s2) := hstep
        cases r with
        | some j =>
          obtain ⟨hj, rfl⟩ := tsAcquire_some s j s2 hstep
          have hij : i ≠ j := fun hij => hj (hij ▸ hi)
          obtain ⟨hr, ht⟩ := ih (insert j s) (Finset.mem_insert_of_mem hi) hnr2
          refine ⟨by rw [hrun, hstep2]; exact hr, ?_⟩
          rw [htr, hstep2]
          intro hmem
          rcases List.mem_append.mp hmem with hm1 | hm2
          · exact hij (List.mem_singleton.mp hm1)
          · exact ht hm2
        | none =>
          have hs2 : s2 = s := by
            unfold tsAcquire at hstep
            cases hf : (List.finRange 32).find? (fun j => decide (j ∉ s)) with
            | none => rw [hf] at hstep; cases hstep; rfl
            | some j => rw [hf] at hstep; cases hstep
          obtain ⟨hr, ht⟩ := ih s hi hnr2
          refine ⟨by rw [hrun, hstep2, hs2]; exact hr, ?_⟩
          rw [htr, hstep2]
          simpa [hs2] using ht
    | release j =>
      have hij : i ≠ j := by
        intro hij
        exact hnr (by rw [hij]; exact List.mem_cons_self _ _)
      have hstep2 : tsStep s (TsOp.release j) = (none, s.erase j) := rfl
      have hi2 : i ∈ s.erase j := Finset.mem_erase.mpr ⟨hij, hi⟩
      obtain ⟨hr, ht⟩ := ih (s.erase j) hi2 hnr2
      exact ⟨by rw [hrun, hstep2]; exact hr, by rw [htr, hstep2]; simpa using ht⟩

/-- C1: the timestamp pool never has more than 32 (the `bitset32` capacity)
indices outstanding; a full pool fails `acquire()` instead of over-allocating;
a successful `acquire()` returns a clear bit and sets it; and an index handed
out by `acquire()` is never handed out again before a `release` of it. -/
theorem vulkanTimestamps_spec (ops l : List TsOp) (s s1 : TsUsed) (i : Fin 32) :
    (tsRun ∅ ops).card ≤ 32 ∧
    (s.card = 32 → tsStep s TsOp.acquire = (none, s)) ∧
    (tsStep s TsOp.acquire = (some i, s1) → i ∉ s ∧ s1 = insert i s) ∧
    (tsStep s TsOp.acquire = (some i, s1) → TsOp.release i ∉ l →
      i ∉ tsTrace s1 l) := by
  refine ⟨?_, ?_, ?_, ?_⟩
  · calc (tsRun ∅ ops).card ≤ Fintype.card (Fin 32) := Finset.card_le_univ _
      _ = 32 := Fintype.card_fin 32
  · intro h; exact tsAcquire_full s h
  · intro h; exact tsAcquire_some s i s1 h
  · intro h hnr
    obtain ⟨_, rfl⟩ := tsAcquire_some s i s1 h
    exact (ts_no_reuse i l (insert i s) (Finset.mem_insert_self i s) hnr).2

/-- C1 witness: from the empty pool, `acquire()` hands out index 0 and, with no
intervening `release 0`, a following `acquire()` does not hand out 0 again. -/
theorem vulkanTimestamps_spec_witness :
    (0 : Fin 32) ∉ tsTrace {0} [TsOp.acquire] :=
  (vulkanTimestamps_spec [] [TsOp.acquire] ∅ {0} 0).2.2.2 (by decide) (by decide)

/-! ## A fresh-handle memo table (shared by the render-pass cache and the
attachment view cache) -/

/-- Lookup in a memo table: the handle of the first entry with the given key. -/
def memoLookup {κ : Type} [DecidableEq κ] (entries : List (κ × Nat)) (k : κ) :
    Option Nat :=
  (entries.find? (fun e => decide (e.1 = k))).map Prod.snd

/-- Well-formedness of a memo table with a fresh-handle counter: every stored
handle was issued by the counter, and no handle is stored twice. -/
def MemoWF {κ : Type} (entries : List (κ × Nat)) (next : Nat) : Prop :=
  (∀ p ∈ entries, p.2 < next) ∧ (entries.map Prod.snd).Nodup

/-- A successful lookup returns a handle stored for exactly that key. -/
theorem memoLookup_mem {κ : Type} [DecidableEq κ] (entries : List (κ × Nat))
    (k : κ) (h : Nat) (hl : memoLookup entries k = some h) : (k, h) ∈ entries := by
  unfold memoLookup at hl
  cases hf : entries.find? (fun e => decide (e.1 = k)) with
  | none => rw [hf] at hl; cases hl
  | some q =>
    rw [hf] at hl
    have hq1 := List.find?_some hf
    simp only [decide_eq_true_eq] at hq1
    have hq2 : q.2 = h := by cases hl; rfl
    have hmem := List.mem_of_find?_eq_some hf
    rw [← hq1, ← hq2]
    exact hmem

/-- Lookup immediately after inserting a key finds the inserted handle. -/
theorem memoLookup_cons_self {κ : Type} [DecidableEq κ] (entries : List (κ × Nat))
    (k : κ) (v : Nat) : memoLookup ((k, v) :: entries) k = some v := by
  unfold memoLookup
  rw [List.find?_cons_of_pos _ (by simp)]
  rfl

/-- With no duplicate handles, a handle determines its key. -/
theorem memo_handle_inj {κ : Type} (entries : List (κ × Nat))
    (hnd : (entries.map Prod.snd).Nodup) (k1 k2 : κ) (h : Nat)
    (h1 : (k1, h) ∈ entries) (h2 : (k2, h) ∈ entries) : k1 = k2 := by
  induction entries with
  | nil => cases h1
  | cons p rest ih =>
    have hnd2 : (rest.map Prod.snd).Nodup := (List.nodup_cons.mp hnd).2
    have hhd : p.2 ∉ rest.map Prod.snd := (List.nodup_cons.mp hnd).1
    rcases List.mem_cons.mp h1 with he1 | ht1
    · rcases List.mem_cons.mp h2 with he2 | ht2
      · rw [← he1] at he2; cases he2; rfl
      · exfalso
        have hp2 : p.2 = h := by rw [← he1]
        rw [hp2] at hhd
        exact hhd (by simpa using List.mem_map_of_mem Prod.snd ht2)
    · rcases List.mem_cons.mp h2 with he2 | ht2
      · exfalso
        have hp2 : p.2 = h := by rw [← he2]
        rw [hp2] at hhd
        exact hhd (by simpa using List.mem_map_of_mem Prod.snd ht1)
      · exact ih hnd2 ht1 ht2

/-- Inserting with the fresh counter preserves well-formedness. -/
theorem MemoWF_insert {κ : Type} (entries : List (κ × Nat)) (next : Nat) (k : κ)
    (hwf : MemoWF entries next) : MemoWF ((k, next) :: entries) (next + 1) := by
  obtain ⟨hlt, hnd⟩ := hwf
  refine ⟨?_, ?_⟩
  · intro p hp
    rcases List.mem_cons.mp hp with he | ht
    · rw [he]; omega
    · have := hlt p ht; omega
  · rw [List.map_cons, List.nodup_cons]
    refine ⟨?_, hnd⟩
    intro hmem
    obtain ⟨p, hp, hps⟩ := List.mem_map.mp hmem
    have := hlt p hp
    omega

/-! ## Vulkan backend: render-pass cache (VulkanContext.h:58-62, 91) -/

/-- The structural cache key derived at `begin()` from the attachment
configuration: formats, sample counts and load/store policy (spec §4.4). -/
structure RenderPassKey where
  colorFormats : List Nat
  depthFormat : Nat
  samples : Nat
  loadOps : List Nat
  storeOps : List Nat
deriving DecidableEq

/-- Modelled from the spec: the render-pass cache behind `begin()` is not in the
source excerpt (VulkanContext.h:58-62 declares only the active
`VulkanRenderPass`, and line 91 the context's `currentRenderPass`).  Per spec
§4.4, `begin()` derives a structural key and reuses a cached native render-pass
object when one matches, otherwise constructs and caches a new one.  Native
`VkRenderPass` handles are embedded as naturals issued by a fresh-handle
counter. -/
structure RenderPassCache where
  entries : List (RenderPassKey × Nat)
  nextHandle : Nat
deriving DecidableEq

/-- `begin()`'s cache access: the native render-pass object for a key, reusing
a cached one when present. -/
def getRenderPass (c : RenderPassCache) (k : RenderPassKey) : Nat × RenderPassCache :=
  match memoLookup c.entries k with
  | some h => (h, c)
  | none => (c.nextHandle,
      { entries := (k, c.nextHandle) :: c.entries, nextHandle := c.nextHandle + 1 })

/-- Cache states reachable from the empty cache: all handles issued by the
counter, no handle issued twice. -/
def CacheWF (c : RenderPassCache) : Prop := MemoWF c.entries c.nextHandle

/-- After any `begin()`, the key maps to the returned handle, well-formedness is
preserved, and old entries survive. -/
theorem getRenderPass_mem (c : RenderPassCache) (k : RenderPassKey) (hwf : CacheWF c) :
    (k, (getRenderPass c k).1) ∈ (getRenderPass c k).2.entries ∧
    CacheWF (getRenderPass c k).2 ∧
    ∀ p ∈ c.entries, p ∈ (getRenderPass c k).2.entries := by
  unfold getRenderPass
  cases hl : memoLookup c.entries k with
  | some h =>
    exact ⟨memoLookup_mem c.entries k h hl, hwf, fun p hp => hp⟩
  | none =>
    exact ⟨List.mem_cons_self _ _, MemoWF_insert c.entries c.nextHandle k hwf,
      fun p hp => List.mem_cons_of_mem _ hp⟩

/-- C5: two `begin()` calls with the identical attachment configuration reuse
the same cached native render-pass object, and (from any well-formed cache
state) differing configurations yield distinct objects. -/
theorem renderPassCache_spec (c : RenderPassCache) (k k1 k2 : RenderPassKey) :
    (getRenderPass (getRenderPass c k).2 k).1 = (getRenderPass c k).1 ∧
    (CacheWF c → k1 ≠ k2 →
      (getRenderPass (getRenderPass c k1).2 k2).1 ≠ (getRenderPass c k1).1) := by
  constructor
  · cases hl : memoLookup c.entries k with
    | some h =>
      have h1 : getRenderPass c k = (h, c) := by
        unfold getRenderPass; rw [hl]
      rw [h1]
      unfold getRenderPass
      rw [hl]
    | none =>
      have h1 : getRenderPass c k = (c.nextHandle,
          { entries := (k, c.nextHandle) :: c.entries,
            nextHandle := c.nextHandle + 1 }) := by
        unfold getRenderPass; rw [hl]
      rw [h1]
      unfold getRenderPass
      rw [memoLookup_cons_self c.entries k c.nextHandle]
  · intro hwf hne heq
    obtain ⟨hm1, hwf1, _⟩ := getRenderPass_mem c k1 hwf
    obtain ⟨hm2, hwf2, hmono⟩ := getRenderPass_mem (getRenderPass c k1).2 k2 hwf1
    have hm1in2 := hmono _ hm1
    rw [heq] at hm2
    exact hne (memo_handle_inj _ hwf2.2 k1 k2 _ hm1in2 hm2)

/-- C5 witness: from the empty cache, a second `begin()` with the same key
returns the handle of the first, and a `begin()` with a different key does not. -/
theorem renderPassCache_spec_witness :
    (getRenderPass (getRenderPass ⟨[], 0⟩ ⟨[1], 0, 1, [0], [0]⟩).2
        ⟨[1], 0, 1, [0], [0]⟩).1
      = (getRenderPass ⟨[], 0⟩ ⟨[1], 0, 1, [0], [0]⟩).1 ∧
    (getRenderPass (getRenderPass ⟨[], 0⟩ ⟨[1], 0, 1, [0], [0]⟩).2
        ⟨[2], 0, 1, [0], [0]⟩).1
      ≠ (getRenderPass ⟨[], 0⟩ ⟨[1], 0, 1, [0], [0]⟩).1 :=
  ⟨(renderPassCache_spec ⟨[], 0⟩ ⟨[1], 0, 1, [0], [0]⟩ ⟨[1], 0, 1, [0], [0]⟩
      ⟨[2], 0, 1, [0], [0]⟩).1,
   (renderPassCache_spec ⟨[], 0⟩ ⟨[1], 0, 1, [0], [0]⟩ ⟨[1], 0, 1, [0], [0]⟩
      ⟨[2], 0, 1, [0], [0]⟩).2
     ⟨fun p hp => absurd hp (List.not_mem_nil p), List.nodup_nil⟩ (by decide)⟩

/-! ## Vulkan backend: attachment view memoization (VulkanContext.h:42-50) -/

/-- The image aspects a view can be scoped to (spec §4.3). -/
inductive VkImageAspect where
  | color
  | depth
  | stencil
deriving DecidableEq

/-- `VulkanAttachment` (VulkanContext.h:42-50): the (texture, mip level, array
layer) triple from the source, extended with the per-aspect view cache that
spec §4.3 ascribes to `getImageView`.  `supportedAspects` abstracts which
aspects the underlying texture format supports; `VkImageView` handles are
embedded as naturals issued by a fresh-handle counter. -/
structure VulkanAttachment where
  texture : Nat
  level : Nat
  layer : Nat
  supportedAspects : List VkImageAspect
  views : List (VkImageAspect × Nat)
  nextView : Nat
deriving DecidableEq

/-- Modelled from the spec: the body of `VulkanAttachment::getImageView`
(declared at VulkanContext.h:49) is not in the source excerpt.  Per spec §4.3,
view creation for a given aspect is performed at most once and reused
thereafter (memoized by aspect), and requesting an aspect the underlying format
does not support is a fatal programming error, modelled as `none`. -/
def getImageView (a : VulkanAttachment) (aspect : VkImageAspect) :
    Option (Nat × VulkanAttachment) :=
  if aspect ∈ a.supportedAspects then
    match memoLookup a.views aspect with
    | some v => some (v, a)
    | none => some (a.nextView,
        { a with views := (aspect, a.nextView) :: a.views, nextView := a.nextView + 1 })
  else none

/-- Attachment view-cache states reachable from a fresh attachment: every view
handle was issued by the counter, no handle issued twice. -/
def AttachmentWF (a : VulkanAttachment) : Prop := MemoWF a.views a.nextView

/-- After a successful `getImageView`, the aspect maps to the returned view,
well-formedness and the supported-aspect list are preserved, and old views
survive. -/
theorem getImageView_mem (a : VulkanAttachment) (aspect : VkImageAspect)
    (v : Nat) (a2 : VulkanAttachment) (hwf : AttachmentWF a)
    (h : getImageView a aspect = some (v, a2)) :
    (aspect, v) ∈ a2.views ∧ AttachmentWF a2 ∧
      a2.supportedAspects = a.supportedAspects ∧
      ∀ p ∈ a.views, p ∈ a2.views := by
  unfold getImageView at h
  by_cases hsup : aspect ∈ a.supportedAspects
  · rw [if_pos hsup] at h
    cases hl : memoLookup a.views aspect with
    | some w =>
      rw [hl] at h
      injection h with h2
      injection h2 with hv ha
      subst hv
      subst ha
      exact ⟨memoLookup_mem a.views aspect w hl, hwf, rfl, fun p hp => hp⟩
    | none =>
      rw [hl] at h
      injection h with h2
      injection h2 with hv ha
      subst hv
      subst ha
      exact ⟨List.mem_cons_self _ _, MemoWF_insert a.views a.nextView aspect hwf,
        rfl, fun p hp => List.mem_cons_of_mem _ hp⟩
  · rw [if_neg hsup] at h
    cases h

/-- C6: a view for an aspect is created at most once: a second `getImageView`
with the same aspect returns the identical handle and leaves the attachment
unchanged, while two different supported aspects (from any well-formed
attachment state) receive two distinct handles. -/
theorem getImageView_spec (a a1 a2 : VulkanAttachment) (asp asp1 asp2 : VkImageAspect)
    (v v1 v2 : Nat) :
    (getImageView a asp = some (v, a1) → getImageView a1 asp = some (v, a1)) ∧
    (AttachmentWF a → asp1 ≠ asp2 →
      getImageView a asp1 = some (v1, a1) → getImageView a1 asp2 = some (v2, a2) →
      v1 ≠ v2) := by
  constructor
  · intro h
    have hcopy := h
    unfold getImageView at h
    by_cases hsup : asp ∈ a.supportedAspects
    · rw [if_pos hsup] at h
      cases hl : memoLookup a.views asp with
      | some w =>
        rw [hl] at h
        injection h with h2
        injection h2 with hv ha
        subst hv
        subst ha
        exact hcopy
      | none =>
        rw [hl] at h
        injection h with h2
        injection h2 with hv ha
        subst hv
        subst ha
        unfold getImageView
        rw [if_pos (show asp ∈ ({ a with
              views := (asp, a.nextView) :: a.views,
              nextView := a.nextView + 1 } : VulkanAttachment).supportedAspects
            from hsup)]
        rw [show memoLookup ({ a with
              views := (asp, a.nextView) :: a.views,
              nextView := a.nextView + 1 } : VulkanAttachment).views asp
            = some a.nextView
          from memoLookup_cons_self a.views asp a.nextView]
    · rw [if_neg hsup] at h
      cases h
  · intro hwf hne h1 h2 heq
    obtain ⟨hm1, hwf1, _, _⟩ := getImageView_mem a asp1 v1 a1 hwf h1
    obtain ⟨hm2, hwf2, _, hmono⟩ := getImageView_mem a1 asp2 v2 a2 hwf1 h2
    have hm1in2 := hmono _ hm1
    rw [heq] at hm1in2
    exact hne (memo_handle_inj _ hwf2.2 asp1 asp2 v2 hm1in2 hm2)

/-- C6 witness: on a fresh attachment supporting color and depth, re-requesting
the color view returns the identical handle and state, and the depth view gets
a different handle than the color view. -/
theorem getImageView_spec_witness :
    getImageView ⟨7, 0, 0, [.color, .depth], [(.color, 0)], 1⟩ .color
      = some (0, ⟨7, 0, 0, [.color, .depth], [(.color, 0)], 1⟩) ∧
    (0 : Nat) ≠ 1 :=
  ⟨(getImageView_spec ⟨7, 0, 0, [.color, .depth], [], 0⟩
      ⟨7, 0, 0, [.color, .depth], [(.color, 0)], 1⟩
      ⟨7, 0, 0, [.color, .depth], [(.color, 0)], 1⟩
      .color .color .depth 0 0 1).1 (by decide),
   (getImageView_spec ⟨7, 0, 0, [.color, .depth], [], 0⟩
      ⟨7, 0, 0, [.color, .depth], [(.color, 0)], 1⟩
      ⟨7, 0, 0, [.color, .depth], [(.depth, 1), (.color, 0)], 2⟩
      .color .color .depth 0 0 1).2
     ⟨fun p hp => absurd hp (List.not_mem_nil p), List.nodup_nil⟩
     (by decide) (by decide) (by decide)⟩

/-! ## Vulkan backend: render-pass state machine (VulkanContext.h:58-62) -/

/-- `VulkanRenderPass` progress state (VulkanContext.h:58-62): `currentSubpass`
tracks progress, and the subpass count comes with the pass parameters. -/
structure VulkanRenderPass where
  currentSubpass : Nat
  subpassCount : Nat
deriving DecidableEq

/-- The render-pass state machine operations (spec §4.4): `begin_ n` opens a
pass with `n` subpasses, `nextSubpass` advances, `endPass` closes. -/
inductive RpOp where
  | begin_ (subpassCount : Nat)
  | nextSubpass
  | endPass
deriving DecidableEq

/-- Modelled from the spec: the begin/advance/end implementation is not in the
source excerpt (VulkanContext.h:58-62 declares only the active pass state).
Per spec §4.4: begin is an error while a pass is active and otherwise opens at
subpass 0; advance is only legal while a pass is active and more subpasses
remain; end is only legal while a pass is active and returns to no-active-pass.
The machine state is `none` (no active pass) or `some` active pass; an illegal
transition yields `none` at the outer `Option`. -/
def rpStep (s : Option VulkanRenderPass) : RpOp → Option (Option VulkanRenderPass)
  | .begin_ n =>
    match s with
    | none => some (some ⟨0, n⟩)
    | some _ => none
  | .nextSubpass =>
    match s with
    | some p =>
      if p.currentSubpass + 1 < p.subpassCount
        then some (some ⟨p.currentSubpass + 1, p.subpassCount⟩)
        else none
    | none => none
  | .endPass =>
    match s with
    | some _ => some none
    | none => none

/-- Running a history of render-pass operations; `none` once any transition is
illegal. -/
def rpRun (s : Option VulkanRenderPass) : List RpOp → Option (Option VulkanRenderPass)
  | [] => some s
  | op :: l =>
    match rpStep s op with
    | some s2 => rpRun s2 l
    | none => none

/-- The shape of legal histories: complete passes in strict
begin / advances / end order, possibly ending inside one open pass. -/
inductive PassShape : List RpOp → Prop
  | empty : PassShape []
  | complete (n k : Nat) (rest : List RpOp) (h : PassShape rest) :
      PassShape (RpOp.begin_ n ::
        (List.replicate k RpOp.nextSubpass ++ RpOp.endPass :: rest))
  | openTail (n k : Nat) :
      PassShape (RpOp.begin_ n :: List.replicate k RpOp.nextSubpass)

/-- A legal history from inside an active pass is a run of advances, possibly
followed by an end and a legal continuation. -/
theorem rpRun_active (s : Option VulkanRenderPass) :
    ∀ (l : List RpOp) (p : VulkanRenderPass), rpRun (some p) l = some s →
      ∃ k l2, l = List.replicate k RpOp.nextSubpass ++ l2 ∧
        (l2 = [] ∨ ∃ l3, l2 = RpOp.endPass :: l3 ∧ rpRun none l3 = some s) := by
  intro l
  induction l with
  | nil =>
    intro p _
    exact ⟨0, [], by simp, Or.inl rfl⟩
  | cons op t ih =>
    intro p h
    cases op with
    | begin_ n =>
      simp only [rpRun, rpStep] at h
      cases h
    | nextSubpass =>
      simp only [rpRun, rpStep] at h
      by_cases hc : p.currentSubpass + 1 < p.subpassCount
      · rw [if_pos hc] at h
        obtain ⟨k, l2, heq, hcase⟩ := ih ⟨p.currentSubpass + 1, p.subpassCount⟩ h
        exact ⟨k + 1, l2, by rw [List.replicate_succ, List.cons_append, heq], hcase⟩
      · rw [if_neg hc] at h
        cases h
    | endPass =>
      simp only [rpRun, rpStep] at h
      exact ⟨0, RpOp.endPass :: t, by simp, Or.inr ⟨t, rfl, h⟩⟩

/-- Every legal history from the no-active-pass state has the strict
begin / advances / end shape. -/
theorem rpRun_shape (m : Nat) :
    ∀ (l : List RpOp), l.length ≤ m → ∀ s, rpRun none l = some s → PassShape l := by
  induction m with
  | zero =>
    intro l hlen s _
    cases l with
    | nil => exact PassShape.empty
    | cons op t => simp at hlen
  | succ m ih =>
    intro l hlen s h
    cases l with
    | nil => exact PassShape.empty
    | cons op t =>
      cases op with
      | begin_ n =>
        simp only [rpRun, rpStep] at h
        obtain ⟨k, l2, heq, hcase⟩ := rpRun_active s t ⟨0, n⟩ h
        rcases hcase with hnil | ⟨l3, hl2, h3⟩
        · rw [heq, hnil, List.append_nil]
          exact PassShape.openTail n k
        · rw [heq, hl2]
          have hlen3 : l3.length ≤ m := by
            have := congrArg List.length heq
            simp only [List.length_cons, List.length_append, List.length_replicate,
              hl2] at this ⊢
            simp only [List.length_cons] at this hlen
            omega
          exact PassShape.complete n k l3 (ih l3 hlen3 s h3)
      | nextSubpass =>
        simp only [rpRun, rpStep] at h
        cases h
      | endPass =>
        simp only [rpRun, rpStep] at h
        cases h

/-- C2: beginning while a pass is active is an error; end and advance are errors
with no active pass; advance is an error once no more subpasses remain; and
every legal history follows the strict begin, advances, end order per pass. -/
theorem renderPassMachine_spec (p : VulkanRenderPass) (n : Nat) (l : List RpOp)
    (s : Option VulkanRenderPass) :
    rpStep (some p) (RpOp.begin_ n) = none ∧
    rpStep none RpOp.endPass = none ∧
    rpStep none RpOp.nextSubpass = none ∧
    (p.currentSubpass + 1 ≥ p.subpassCount → rpStep (some p) RpOp.nextSubpass = none) ∧
    (rpRun none l = some s → PassShape l) := by
  refine ⟨rfl, rfl, rfl, ?_, ?_⟩
  · intro hge
    simp only [rpStep]
    rw [if_neg (by omega)]
  · intro h
    exact rpRun_shape l.length l (Nat.le_refl _) s h

/-- C2 witness: a pass with one subpass rejects an advance, and the concrete
legal history begin, advance, end has the strict shape. -/
theorem renderPassMachine_spec_witness :
    rpStep (some ⟨0, 1⟩) RpOp.nextSubpass = none ∧
    PassShape [RpOp.begin_ 2, RpOp.nextSubpass, RpOp.endPass] :=
  ⟨(renderPassMachine_spec ⟨0, 1⟩ 0 [] none).2.2.2.1 (by decide),
   (renderPassMachine_spec ⟨0, 0⟩ 0 [RpOp.begin_ 2, RpOp.nextSubpass, RpOp.endPass]
      none).2.2.2.2 (by decide)⟩

/-! ## Vulkan backend: deferred disposer (VulkanContext.h:23) -/

/-- Events seen by the deferred disposer: a destroy-intent for a resource,
a submission boundary (advancing the current generation), and a completion
signal for a generation.  (spec §5, §6, §9). -/
inductive DspOp where
  | destroyIntent (r : Nat)
  | submit
  | complete (g : Nat)
deriving DecidableEq

/-- Modelled from the spec: `VulkanDisposer` is only included by the excerpt
(VulkanContext.h:23); its implementation is not under src/.  Spec §9 describes
it as a generation-tagged queue: each destroy-intent is tagged with the current
submission generation at enqueue time, and a sweep driven by completion
signals frees all intents whose tagged generation is known to have completed.
`freed` records the resources actually destroyed, with their tags. -/
structure VulkanDisposer where
  currentGen : Nat
  completedGen : Nat
  pending : List (Nat × Nat)
  freed : List (Nat × Nat)
deriving DecidableEq

/-- The disposer at backend initialization: generation 1 is being recorded and
nothing has completed yet. -/
def dspInit : VulkanDisposer :=
  { currentGen := 1, completedGen := 0, pending := [], freed := [] }

/-- One disposer event.  A destroy-intent only enqueues (never frees directly);
a completion signal raises the completed generation and sweeps every pending
intent whose tag is now completed into `freed`. -/
def dspStep (d : VulkanDisposer) : DspOp → VulkanDisposer
  | .destroyIntent r => { d with pending := (r, d.currentGen) :: d.pending }
  | .submit => { d with currentGen := d.currentGen + 1 }
  | .complete g =>
    let done := max d.completedGen g
    { d with
      completedGen := done,
      pending := d.pending.filter (fun p => decide (done < p.2)),
      freed := d.pending.filter (fun p => decide (p.2 ≤ done)) ++ d.freed }

/-- The disposer state after a sequence of events. -/
def dspRun (d : VulkanDisposer) : List DspOp → VulkanDisposer
  | [] => d
  | op :: l => dspRun (dspStep d op) l

/-- The invariant carried by every reachable disposer state: freed intents are
covered by a completion signal seen so far, the completed generation is 0 or
was signalled, and all tags are at least 1. -/
def DspInv (ops : List DspOp) (d : VulkanDisposer) : Prop :=
  (∀ p ∈ d.freed, p.2 ≤ d.completedGen) ∧
  (d.completedGen = 0 ∨ DspOp.complete d.completedGen ∈ ops) ∧
  (∀ p ∈ d.pending, 1 ≤ p.2) ∧ (∀ p ∈ d.freed, 1 ≤ p.2) ∧
  1 ≤ d.currentGen

/-- Running a disposer history splits along append. -/
theorem dspRun_append (d : VulkanDisposer) :
    ∀ (l1 l2 : List DspOp), dspRun d (l1 ++ l2) = dspRun (dspRun d l1) l2 := by
  intro l1
  induction l1 generalizing d with
  | nil => intro l2; rfl
  | cons op t ih => intro l2; exact ih (dspStep d op) l2

/-- One disposer event preserves the reachable-state invariant. -/
theorem dspStep_inv (ops : List DspOp) (d : VulkanDisposer) (op : DspOp)
    (hin : DspInv ops d) : DspInv (ops ++ [op]) (dspStep d op) := by
  obtain ⟨hfr, hcg, hpd, hfg, hcu⟩ := hin
  cases op with
  | destroyIntent r =>
    refine ⟨hfr, ?_, ?_, hfg, hcu⟩
    · rcases hcg with h0 | hm
      · exact Or.inl h0
      · exact Or.inr (List.mem_append_left _ hm)
    · intro p hp
      rcases List.mem_cons.mp hp with he | ht
      · rw [he]; exact hcu
      · exact hpd p ht
  | submit =>
    refine ⟨hfr, ?_, hpd, hfg, by simp only [dspStep]; omega⟩
    rcases hcg with h0 | hm
    · exact Or.inl h0
    · exact Or.inr (List.mem_append_left _ hm)
  | complete g =>
    refine ⟨?_, ?_, ?_, ?_, hcu⟩
    · intro p hp
      rcases List.mem_append.mp hp with hnew | hold
      · have hdec := List.of_mem_filter hnew
        simp only [decide_eq_true_eq] at hdec
        exact hdec
      · calc p.2 ≤ d.completedGen := hfr p hold
          _ ≤ max d.completedGen g := Nat.le_max_left _ _
    · rcases Nat.le_total g d.completedGen with hle | hle
      · rw [show (dspStep d (DspOp.complete g)).completedGen = max d.completedGen g from rfl,
          Nat.max_eq_left hle]
        rcases hcg with h0 | hm
        · exact Or.inl h0
        · exact Or.inr (List.mem_append_left _ hm)
      · rw [show (dspStep d (DspOp.complete g)).completedGen = max d.completedGen g from rfl,
          Nat.max_eq_right hle]
        exact Or.inr (List.mem_append_right _ (List.mem_singleton_self _))
    · intro p hp
      exact hpd p (List.mem_of_mem_filter hp)
    · intro p hp
      rcases List.mem_append.mp hp with hnew | hold
      · exact hpd p (List.mem_of_mem_filter hnew)
      · exact hfg p hold

/-- Every disposer state reachable from initialization satisfies the invariant. -/
theorem dspRun_inv (ops : List DspOp) : DspInv ops (dspRun dspInit ops) := by
  induction ops using List.reverseRecOn with
  | nil =>
    refine ⟨?_, Or.inl rfl, ?_, ?_, ?_⟩ <;> simp [dspRun, dspInit]
  | append_singleton l op ih =>
    rw [dspRun_append dspInit l [op]]
    exact dspStep_inv l (dspRun dspInit l) op ih

/-- C7: a resource destroyed by the disposer was covered by a completion signal
for a generation at least its tag, i.e. its destruction never precedes the
completion of the submission it was tagged with; and a destroy-intent by itself
never frees anything — it only enqueues. -/
theorem vulkanDisposer_spec (ops : List DspOp) (r g : Nat) (d : VulkanDisposer) :
    ((r, g) ∈ (dspRun dspInit ops).freed →
      ∃ gc, DspOp.complete gc ∈ ops ∧ g ≤ gc) ∧
    (dspStep d (DspOp.destroyIntent r)).freed = d.freed := by
  constructor
  · intro hmem
    obtain ⟨hfr, hcg, _, hfg, _⟩ := dspRun_inv ops
    have hle : g ≤ (dspRun dspInit ops).completedGen := hfr (r, g) hmem
    have hge1 : 1 ≤ g := hfg (r, g) hmem
    rcases hcg with h0 | hm
    · omega
    · exact ⟨(dspRun dspInit ops).completedGen, hm, hle⟩
  · rfl

/-- C7 witness: an intent for resource 5, tagged with generation 1, freed by the
completion signal for generation 1 — which indeed precedes the destruction. -/
theorem vulkanDisposer_spec_witness :
    ∃ gc, DspOp.complete gc ∈ [DspOp.destroyIntent 5, DspOp.complete 1] ∧ 1 ≤ gc :=
  (vulkanDisposer_spec [DspOp.destroyIntent 5, DspOp.complete 1] 5 1 dspInit).1
    (by decide)
